import Mathlib

/-!
Verification development for the deterministic virtual-time scheduler
(`deterministic-scheduler.h` of the cache-invalidation client library).

The header defines `TaskEntry` (with its `operator<`), the constructor,
`GetCurrentTime`, `StartScheduler`, `IsRunningOnThread`, `SetInitialTime`,
the one-argument `PassTime` overload, `DefaultTimeStep` and `ModifyTime`
inline; those are translated here directly.  The bodies of `Schedule`,
`StopScheduler`, the two-argument `PassTime` and the drain helpers
(`RunReadyTasks`, `RunNextTask`), as well as the `RunState` class, live in
files that are not part of this repository snapshot; they are modelled
from the specification and are marked as such in their doc comments.

`Time` and `TimeDelta` are modelled as `Int` (a count of milliseconds);
sequence ids are modelled as `Nat`.
-/

namespace DetSched

/-- Modelled from the spec: a `Closure*` is an opaque zero-argument unit of
work.  The only interaction such work can have with the scheduler is to call
`Schedule` again while it runs, so a task is modelled as a labelled tree:
invoking `node label subs` schedules, in order, each `(delay, child)` pair of
`subs`.  A leaf (empty `subs`) is a task that schedules nothing. -/
inductive Task where
  | node (label : Nat) (subs : List (Int × Task)) : Task
deriving Repr

mutual

/-- Number of nodes of a task tree (termination measure for the drain). -/
def Task.size : Task → Nat
  | .node _ subs => 1 + subsSize subs

/-- Total size of the children of a task. -/
def subsSize : List (Int × Task) → Nat
  | [] => 0
  | (_, t) :: rest => Task.size t + subsSize rest

end

mutual

/-- Well-formedness: every delay appearing in the tree is non-negative. -/
def Task.wfB : Task → Bool
  | .node _ subs => subsWfB subs

/-- Well-formedness of a child list. -/
def subsWfB : List (Int × Task) → Bool
  | [] => true
  | (d, t) :: rest => decide (0 ≤ d) && Task.wfB t && subsWfB rest

end

/-- A leaf task: it schedules no further work when invoked. -/
def Task.leaf : Task → Bool
  | .node _ subs => subs.isEmpty

theorem Task.size_pos (t : Task) : 1 ≤ t.size := by
  cases t with
  | node l subs => simp [Task.size]

/-- An entry in the work queue (struct `TaskEntry` of the source): the time
at which to run, the order in which the task was enqueued, and the task. -/
structure TaskEntry where
  time : Int
  id : Nat
  task : Task
deriving Repr

/-- Source `TaskEntry::operator<`.  The comment in the source notes:
priority queue returns *largest* element first. -/
def TaskEntry.lt (a b : TaskEntry) : Bool :=
  decide (a.time > b.time) || (decide (a.time = b.time) && decide (a.id > b.id))

/-- The (due time, sequence id) key of an entry. -/
def TaskEntry.key (e : TaskEntry) : Int × Nat := (e.time, e.id)

/-- The ordering relation of the spec on (due time, sequence id) keys:
`a` orders before `b` iff `a` is due earlier, or at the same time with a
lower sequence id. -/
def klex (a b : Int × Nat) : Prop :=
  a.1 < b.1 ∨ (a.1 = b.1 ∧ a.2 < b.2)

instance (a b : Int × Nat) : Decidable (klex a b) := by
  unfold klex; infer_instance

theorem klex_irrefl (a : Int × Nat) : ¬ klex a a := by
  simp [klex]

theorem klex_trans {a b c : Int × Nat} (h1 : klex a b) (h2 : klex b c) :
    klex a c := by
  rcases h1 with h1 | ⟨h1, h1'⟩ <;> rcases h2 with h2 | ⟨h2, h2'⟩ <;>
    simp [klex] <;> omega

theorem klex_total {a b : Int × Nat} (h : ¬ klex a b) : b = a ∨ klex b a := by
  rcases a with ⟨a1, a2⟩
  rcases b with ⟨b1, b2⟩
  simp [klex] at h ⊢
  omega

/-- The source comparator, read through the ordering relation of the spec:
`a < b` in the C++ sense holds exactly when `b` orders before `a`. -/
theorem TaskEntry.lt_iff_klex (a b : TaskEntry) :
    TaskEntry.lt a b = true ↔ klex b.key a.key := by
  simp only [TaskEntry.lt, TaskEntry.key, klex, gt_iff_lt, Bool.or_eq_true,
    Bool.and_eq_true, decide_eq_true_eq]
  omega

/-- Scan of `std::priority_queue::top`/`pop` over the stored entries:
returns a maximal element (under `TaskEntry.lt`) together with the rest. -/
def pqSelect (best : TaskEntry) : List TaskEntry → TaskEntry × List TaskEntry
  | [] => (best, [])
  | e :: rest =>
    if TaskEntry.lt best e then
      ((pqSelect e rest).1, best :: (pqSelect e rest).2)
    else
      ((pqSelect best rest).1, e :: (pqSelect best rest).2)

/-- Pop of the priority queue: the maximal entry under `operator<` (hence
the earliest-due, lowest-id entry) and the remaining entries. -/
def pqPop : List TaskEntry → Option (TaskEntry × List TaskEntry)
  | [] => none
  | e :: rest => some (pqSelect e rest)

theorem pqSelect_perm (best : TaskEntry) (l : List TaskEntry) :
    List.Perm ((pqSelect best l).1 :: (pqSelect best l).2) (best :: l) := by
  induction l generalizing best with
  | nil => simp [pqSelect]
  | cons e rest ih =>
    by_cases h : TaskEntry.lt best e
    · simp only [pqSelect, h, if_true]
      exact (List.Perm.swap best (pqSelect e rest).1 (pqSelect e rest).2).trans
        ((ih e).cons best)
    · simp only [pqSelect, h, if_false]
      exact ((List.Perm.swap e (pqSelect best rest).1 (pqSelect best rest).2).trans
        ((ih best).cons e)).trans (List.Perm.swap best e rest)

theorem pqSelect_min (best : TaskEntry) (l : List TaskEntry) :
    ∀ x ∈ best :: l, ¬ klex x.key (pqSelect best l).1.key := by
  induction l generalizing best with
  | nil =>
    intro x hx
    simp [pqSelect] at hx ⊢
    subst hx
    exact klex_irrefl _
  | cons e rest ih =>
    intro x hx
    by_cases h : TaskEntry.lt best e
    · have hlt : klex e.key best.key := (TaskEntry.lt_iff_klex best e).mp h
      simp only [pqSelect, h, if_true]
      rcases List.mem_cons.mp hx with hxb | hxt
      · subst hxb
        intro hcon
        exact ih e e (List.mem_cons_self e rest) (klex_trans hlt hcon)
      · exact ih e x hxt
    · have hnlt : ¬ klex e.key best.key := by
        intro hcon
        exact h ((TaskEntry.lt_iff_klex best e).mpr hcon)
      simp only [pqSelect, h, if_false]
      rcases List.mem_cons.mp hx with hxb | hxt
      · subst hxb
        exact ih x x (List.mem_cons_self x rest)
      · rcases List.mem_cons.mp hxt with hxe | hxr
        · subst hxe
          intro hcon
          rcases klex_total hnlt with heq | hbe
          · exact ih best best (List.mem_cons_self best rest) (heq ▸ hcon)
          · exact ih best best (List.mem_cons_self best rest) (klex_trans hbe hcon)
        · exact ih best x (List.mem_cons.mpr (Or.inr hxr))

theorem pqPop_perm {q : List TaskEntry} {e : TaskEntry} {rest : List TaskEntry}
    (h : pqPop q = some (e, rest)) : List.Perm (e :: rest) q := by
  cases q with
  | nil => simp [pqPop] at h
  | cons b l =>
    simp only [pqPop, Option.some.injEq] at h
    have hp := pqSelect_perm b l
    rw [show (pqSelect b l).1 = e from by rw [h], show (pqSelect b l).2 = rest from by rw [h]] at hp
    exact hp

theorem pqPop_min {q : List TaskEntry} {e : TaskEntry} {rest : List TaskEntry}
    (h : pqPop q = some (e, rest)) : ∀ x ∈ q, ¬ klex x.key e.key := by
  cases q with
  | nil => simp [pqPop] at h
  | cons b l =>
    simp only [pqPop, Option.some.injEq] at h
    intro x hx
    have := pqSelect_min b l x hx
    rwa [show (pqSelect b l).1 = e from by rw [h]] at this

/-- Total task-tree size stored in a queue: the termination measure for the
drain loop. -/
def queueSize (q : List TaskEntry) : Nat :=
  (q.map fun e => e.task.size).sum

theorem queueSize_perm {q q' : List TaskEntry} (h : List.Perm q q') :
    queueSize q = queueSize q' := by
  unfold queueSize
  exact (h.map fun e => e.task.size).sum_eq

theorem pqPop_queueSize {q : List TaskEntry} {e : TaskEntry}
    {rest : List TaskEntry} (h : pqPop q = some (e, rest)) :
    queueSize q = e.task.size + queueSize rest := by
  have := queueSize_perm (pqPop_perm h)
  simpa [queueSize] using this.symm

/-- Modelled from the spec: the `RunState` class (its header is not part of
this repository snapshot) is a three-state lifecycle: not started / running /
stopped. -/
inductive RunState where
  | idle
  | running
  | stopped
deriving Repr, DecidableEq

/-- The `DeterministicScheduler` state: the virtual clock `current_time_`,
the id of the next task `current_id_`, the run state, the reentrancy flag
`running_internal_`, and the priority queue of pending entries (modelled as
the list of stored entries; pops go through `pqPop`).  The extra `log` field
is a ghost history: the entries that have been executed, in execution
order; the C++ object has no such field, and no operation reads it. -/
structure DeterministicScheduler where
  current_time_ : Int
  current_id_ : Nat
  run_state_ : RunState
  running_internal_ : Bool
  work_queue_ : List TaskEntry
  log : List TaskEntry
deriving Repr

namespace DeterministicScheduler

/-- The constructor: `current_id_(0), running_internal_(false)`, with the
default-constructed clock at instant 0 and the run state not started. -/
def init : DeterministicScheduler :=
  { current_time_ := 0
    current_id_ := 0
    run_state_ := RunState.idle
    running_internal_ := false
    work_queue_ := []
    log := [] }

/-- Source `GetCurrentTime`: returns `current_time_`. -/
def GetCurrentTime (s : DeterministicScheduler) : Int :=
  s.current_time_

/-- Source `StartScheduler`: `run_state_.Start()`.  Modelled from the spec: `Start`
transitions to the running state. -/
def StartScheduler (s : DeterministicScheduler) : DeterministicScheduler :=
  { s with run_state_ := RunState.running }

/-- Modelled from the spec: `StopScheduler` (its body is not part of this
repository snapshot) transitions to the stopped state, and all remaining
queued tasks are discarded without invocation. -/
def StopScheduler (s : DeterministicScheduler) : DeterministicScheduler :=
  { s with run_state_ := RunState.stopped, work_queue_ := [] }

/-- Source `IsRunningOnThread`: returns `running_internal_`. -/
def IsRunningOnThread (s : DeterministicScheduler) : Bool :=
  s.running_internal_

/-- Source `SetInitialTime`: `current_time_ = new_time` (the body is a single
unconditional assignment). -/
def SetInitialTime (s : DeterministicScheduler) (new_time : Int) :
    DeterministicScheduler :=
  { s with current_time_ := new_time }

/-- Source `DefaultTimeStep`: 10 milliseconds. -/
def DefaultTimeStep : Int := 10

/-- Source `ModifyTime`: `current_time_ += delta_time`. -/
def ModifyTime (s : DeterministicScheduler) (delta_time : Int) :
    DeterministicScheduler :=
  { s with current_time_ := s.current_time_ + delta_time }

/-- Modelled from the spec: `Schedule` (its body is not part of this
repository snapshot) constructs a `TaskEntry` with due time
`current_time_ + delay` and the next sequence id, and pushes it onto the
work queue; it never runs the task synchronously and has no other effect.
(The spec leaves the policy for scheduling on a stopped scheduler open; the
model inserts unconditionally.) -/
def Schedule (s : DeterministicScheduler) (delay : Int) (task : Task) :
    DeterministicScheduler :=
  { s with
    work_queue_ := s.work_queue_ ++ [⟨s.current_time_ + delay, s.current_id_, task⟩]
    current_id_ := s.current_id_ + 1 }

/-- Invoking the children list of a task: each `(delay, child)` pair is passed to
`Schedule`, in order. -/
def scheduleSubs (s : DeterministicScheduler) :
    List (Int × Task) → DeterministicScheduler
  | [] => s
  | (d, t) :: rest => scheduleSubs (Schedule s d t) rest

/-- Invoking a task: in this model the only scheduler-visible effect of
running a closure is the `Schedule` calls it makes. -/
def invokeTask (s : DeterministicScheduler) : Task → DeterministicScheduler
  | .node _ subs => scheduleSubs s subs

theorem Schedule_queueSize (s : DeterministicScheduler) (d : Int) (t : Task) :
    queueSize (Schedule s d t).work_queue_ = queueSize s.work_queue_ + t.size := by
  simp [Schedule, queueSize]

theorem scheduleSubs_queueSize (subs : List (Int × Task))
    (s : DeterministicScheduler) :
    queueSize (scheduleSubs s subs).work_queue_ =
      queueSize s.work_queue_ + subsSize subs := by
  induction subs generalizing s with
  | nil => simp [scheduleSubs, subsSize]
  | cons p rest ih =>
    cases p with
    | mk d t =>
      simp [scheduleSubs, subsSize, ih, Schedule_queueSize]
      omega

theorem invokeTask_queueSize (s : DeterministicScheduler) (t : Task) :
    queueSize (invokeTask s t).work_queue_ + 1 =
      queueSize s.work_queue_ + t.size := by
  cases t with
  | node l subs =>
    simp [invokeTask, scheduleSubs_queueSize, Task.size]
    omega

/-- One drain step: pop the entry, record it in the ghost log, raise
`running_internal_` while the task runs, and restore the flag afterwards. -/
def runOne (s : DeterministicScheduler) (e : TaskEntry)
    (rest : List TaskEntry) : DeterministicScheduler :=
  { invokeTask
      { s with work_queue_ := rest, log := s.log ++ [e],
               running_internal_ := true } e.task
    with running_internal_ := s.running_internal_ }

theorem runOne_queueSize_lt {s : DeterministicScheduler} {e : TaskEntry}
    {rest : List TaskEntry} (h : pqPop s.work_queue_ = some (e, rest)) :
    queueSize (runOne s e rest).work_queue_ < queueSize s.work_queue_ := by
  have h1 := pqPop_queueSize h
  have h2 := invokeTask_queueSize
    { s with work_queue_ := rest, log := s.log ++ [e],
             running_internal_ := true } e.task
  have h3 := Task.size_pos e.task
  simp only [runOne]
  simp only [] at h2
  omega

/-- Modelled from the spec: `RunReadyTasks` (its body is not part of this
repository snapshot) repeatedly pops the earliest queue entry while it is
due (`due_time <= current_time_`) and invokes it, with the reentrancy flag
set during the invocation; tasks scheduled by running tasks take part in
the same drain when they are already due. -/
def RunReadyTasks (s : DeterministicScheduler) : DeterministicScheduler :=
  match h : pqPop s.work_queue_ with
  | none => s
  | some (e, rest) =>
    if e.time ≤ s.current_time_ then
      RunReadyTasks (runOne s e rest)
    else s
termination_by queueSize s.work_queue_
decreasing_by
  exact runOne_queueSize_lt h

/-- Modelled from the spec: the two-argument `PassTime` (its body is not
part of this repository snapshot) repeatedly advances the clock to
`min (current_time_ + step, target)` and drains, until the target
`current_time_ + delta_time` is reached; a non-positive delta performs zero
iterations.  (For a non-positive step with a positive delta the source loop
would never terminate; the model returns the state unchanged, and every use
in this development has a positive step.) -/
def PassTime (s : DeterministicScheduler) (delta_time step : Int) :
    DeterministicScheduler :=
  if delta_time ≤ 0 then s
  else if step ≤ 0 then s
  else
    PassTime (RunReadyTasks (ModifyTime s (min step delta_time)))
      (delta_time - min step delta_time) step
termination_by delta_time.toNat
decreasing_by
  omega

/-- The one-argument `PassTime` overload of the source:
`PassTime(delta_time, DefaultTimeStep())`. -/
def PassTimeDefault (s : DeterministicScheduler) (delta_time : Int) :
    DeterministicScheduler :=
  PassTime s delta_time DefaultTimeStep

end DeterministicScheduler

/-- A test-driver operation on the scheduler. -/
inductive Op where
  | schedule (delay : Int) (task : Task)
  | passTime (delta step : Int)
  | passTimeDefault (delta : Int)
  | start
  | stop
  | setInitialTime (t : Int)

/-- Apply one operation. -/
def applyOp (s : DeterministicScheduler) : Op → DeterministicScheduler
  | .schedule d t => s.Schedule d t
  | .passTime d st => s.PassTime d st
  | .passTimeDefault d => s.PassTimeDefault d
  | .start => s.StartScheduler
  | .stop => s.StopScheduler
  | .setInitialTime t => s.SetInitialTime t

/-- Apply a sequence of operations, left to right. -/
def applyOps (ops : List Op) (s : DeterministicScheduler) :
    DeterministicScheduler :=
  ops.foldl applyOp s

/-- Every id in the queue and in the execution history is below the
`current_id_` counter (holds in every reachable state). -/
def idsBelow (s : DeterministicScheduler) : Prop :=
  (∀ e ∈ s.work_queue_, e.id < s.current_id_) ∧
    ∀ l ∈ s.log, l.id < s.current_id_

/-- All ids at or above `N` are fresh relative to the baseline history
`L0`: the counter is at least `N`, every pending entry has id at least `N`,
and every executed entry either was already in `L0` or has id at least
`N`. -/
def freshFrom (N : Nat) (L0 : List TaskEntry)
    (s : DeterministicScheduler) : Prop :=
  N ≤ s.current_id_ ∧ (∀ e ∈ s.work_queue_, N ≤ e.id) ∧
    ∀ l ∈ s.log, l ∈ L0 ∨ N ≤ l.id

/-- The operations for which the clock is a running sum: anything except
`SetInitialTime` (which overwrites the clock), with explicit `PassTime`
steps positive (for a non-positive step and a positive delta the source
loop would never complete). -/
def Op.okClock : Op → Bool
  | .setInitialTime _ => false
  | .passTime _ st => decide (0 < st)
  | _ => true

/-- The elapsed-time contribution of an operation sequence: the positive
part of each `PassTime` delta. -/
def deltaSum : List Op → Int
  | [] => 0
  | Op.passTime d _ :: r => max d 0 + deltaSum r
  | Op.passTimeDefault d :: r => max d 0 + deltaSum r
  | _ :: r => deltaSum r

namespace DeterministicScheduler

/-- The ordering/bookkeeping invariant maintained by schedule and
time-advancement operations: the ghost log is strictly increasing in the
(due time, sequence id) order, every logged entry precedes every pending
entry in that order, ids are below the `current_id_` counter and unique,
logged entries were due no later than the current clock, and every pending
task has non-negative delays in its tree. -/
structure Inv (s : DeterministicScheduler) : Prop where
  logSorted : s.log.Pairwise (fun a b => klex a.key b.key)
  logQueue : ∀ l ∈ s.log, ∀ e ∈ s.work_queue_, klex l.key e.key
  queueIds : ∀ e ∈ s.work_queue_, e.id < s.current_id_
  logIds : ∀ l ∈ s.log, l.id < s.current_id_
  logTimes : ∀ l ∈ s.log, l.time ≤ s.current_time_
  queueUnique : s.work_queue_.Pairwise (fun a b => a.id ≠ b.id)
  queueWf : ∀ e ∈ s.work_queue_, e.task.wfB = true

theorem Inv_init : Inv init := by
  constructor <;> simp [init]

theorem Inv_Schedule {s : DeterministicScheduler} (hs : Inv s) {d : Int}
    (hd : 0 ≤ d) {t : Task} (ht : t.wfB = true) : Inv (Schedule s d t) := by
  constructor
  · exact hs.logSorted
  · intro l hl e he
    simp only [Schedule, List.mem_append, List.mem_singleton] at he
    rcases he with he | he
    · exact hs.logQueue l hl e he
    · subst he
      have h1 := hs.logTimes l hl
      have h2 := hs.logIds l hl
      simp only [TaskEntry.key, klex]
      by_cases hteq : l.time = s.current_time_ + d
      · exact Or.inr ⟨hteq, h2⟩
      · exact Or.inl (by omega)
  · intro e he
    simp only [Schedule, List.mem_append, List.mem_singleton] at he
    rcases he with he | he
    · exact Nat.lt_succ_of_lt (hs.queueIds e he)
    · subst he
      exact Nat.lt_succ_self _
  · intro l hl
    exact Nat.lt_succ_of_lt (hs.logIds l hl)
  · intro l hl
    exact hs.logTimes l hl
  · simp only [Schedule]
    refine List.pairwise_append.mpr ⟨hs.queueUnique, List.pairwise_singleton _ _, ?_⟩
    intro a ha b hb
    simp only [List.mem_singleton] at hb
    subst hb
    exact Nat.ne_of_lt (hs.queueIds a ha)
  · intro e he
    simp only [Schedule, List.mem_append, List.mem_singleton] at he
    rcases he with he | he
    · exact hs.queueWf e he
    · subst he
      exact ht

theorem Inv_scheduleSubs {subs : List (Int × Task)}
    {s : DeterministicScheduler} (hs : Inv s) (hw : subsWfB subs = true) :
    Inv (scheduleSubs s subs) := by
  induction subs generalizing s with
  | nil => exact hs
  | cons p rest ih =>
    cases p with
    | mk d t =>
      simp only [subsWfB, Bool.and_eq_true, decide_eq_true_eq] at hw
      exact ih (Inv_Schedule hs hw.1.1 hw.1.2) hw.2

theorem Inv_invokeTask {s : DeterministicScheduler} (hs : Inv s) {t : Task}
    (ht : t.wfB = true) : Inv (invokeTask s t) := by
  cases t with
  | node l subs =>
    exact Inv_scheduleSubs hs (by simpa [Task.wfB] using ht)

theorem Inv_flag {s : DeterministicScheduler} (hs : Inv s) (b : Bool) :
    Inv { s with running_internal_ := b } :=
  ⟨hs.logSorted, hs.logQueue, hs.queueIds, hs.logIds, hs.logTimes,
    hs.queueUnique, hs.queueWf⟩

theorem queueUnique_pop {s : DeterministicScheduler} (hs : Inv s)
    {e : TaskEntry} {rest : List TaskEntry}
    (h : pqPop s.work_queue_ = some (e, rest)) :
    List.Pairwise (fun a b => a.id ≠ b.id) (e :: rest) := by
  have hsym : Symmetric (fun (a b : TaskEntry) => a.id ≠ b.id) :=
    fun a b hab => fun hba => hab hba.symm
  exact ((pqPop_perm h).pairwise_iff (fun hab => fun hba => hab hba.symm)).mpr
    hs.queueUnique

theorem pop_min_strict {s : DeterministicScheduler} (hs : Inv s)
    {e : TaskEntry} {rest : List TaskEntry}
    (h : pqPop s.work_queue_ = some (e, rest)) :
    ∀ x ∈ rest, klex e.key x.key := by
  intro x hx
  have hxq : x ∈ s.work_queue_ :=
    (pqPop_perm h).mem_iff.mp (List.mem_cons.mpr (Or.inr hx))
  have hmin := pqPop_min h x hxq
  rcases klex_total hmin with heq | hlt
  · exfalso
    have hne := List.rel_of_pairwise_cons (queueUnique_pop hs h) hx
    exact hne (congrArg Prod.snd heq)
  · exact hlt

theorem Inv_runOne {s : DeterministicScheduler} (hs : Inv s) {e : TaskEntry}
    {rest : List TaskEntry} (h : pqPop s.work_queue_ = some (e, rest))
    (hle : e.time ≤ s.current_time_) : Inv (runOne s e rest) := by
  have heq : e ∈ s.work_queue_ :=
    (pqPop_perm h).mem_iff.mp (List.mem_cons_self e rest)
  have hrest : ∀ x ∈ rest, x ∈ s.work_queue_ := fun x hx =>
    (pqPop_perm h).mem_iff.mp (List.mem_cons.mpr (Or.inr hx))
  have hs1 : Inv { s with work_queue_ := rest, log := s.log ++ [e], running_internal_ := true } := by
    constructor
    · refine List.pairwise_append.mpr
        ⟨hs.logSorted, List.pairwise_singleton _ _, ?_⟩
      intro a ha b hb
      simp only [List.mem_singleton] at hb
      subst hb
      exact hs.logQueue a ha b heq
    · intro l hl x hx
      simp only [List.mem_append, List.mem_singleton] at hl
      rcases hl with hl | hl
      · exact hs.logQueue l hl x (hrest x hx)
      · subst hl
        exact pop_min_strict hs h x hx
    · intro x hx
      exact hs.queueIds x (hrest x hx)
    · intro l hl
      simp only [List.mem_append, List.mem_singleton] at hl
      rcases hl with hl | hl
      · exact hs.logIds l hl
      · subst hl
        exact hs.queueIds l heq
    · intro l hl
      simp only [List.mem_append, List.mem_singleton] at hl
      rcases hl with hl | hl
      · exact hs.logTimes l hl
      · subst hl
        exact hle
    · exact List.Pairwise.of_cons (queueUnique_pop hs h)
    · intro x hx
      exact hs.queueWf x (hrest x hx)
  have hwf : e.task.wfB = true := hs.queueWf e heq
  exact Inv_flag (Inv_invokeTask hs1 hwf) _

theorem RunReadyTasks_none {s : DeterministicScheduler}
    (h : pqPop s.work_queue_ = none) : RunReadyTasks s = s := by
  rw [RunReadyTasks.eq_def]
  split
  · rfl
  · rename_i e rest hsome
    rw [h] at hsome
    cases hsome

theorem RunReadyTasks_due {s : DeterministicScheduler} {e : TaskEntry}
    {rest : List TaskEntry} (h : pqPop s.work_queue_ = some (e, rest))
    (hle : e.time ≤ s.current_time_) :
    RunReadyTasks s = RunReadyTasks (runOne s e rest) := by
  rw [RunReadyTasks.eq_def]
  split
  · rename_i hnone
    rw [h] at hnone
    cases hnone
  · rename_i e' rest' hsome
    rw [h] at hsome
    cases hsome
    simp only [hle, if_true]

theorem RunReadyTasks_notdue {s : DeterministicScheduler} {e : TaskEntry}
    {rest : List TaskEntry} (h : pqPop s.work_queue_ = some (e, rest))
    (hnle : ¬ e.time ≤ s.current_time_) : RunReadyTasks s = s := by
  rw [RunReadyTasks.eq_def]
  split
  · rfl
  · rename_i e' rest' hsome
    rw [h] at hsome
    cases hsome
    simp only [hnle, if_false]

theorem Inv_RunReadyTasks (s : DeterministicScheduler) :
    Inv s → Inv (RunReadyTasks s) := by
  induction s using RunReadyTasks.induct with
  | case1 s hnone =>
    intro hs
    rw [RunReadyTasks_none hnone]
    exact hs
  | case2 s e rest hsome hle ih =>
    intro hs
    rw [RunReadyTasks_due hsome hle]
    exact ih (Inv_runOne hs hsome hle)
  | case3 s e rest hsome hnle =>
    intro hs
    rw [RunReadyTasks_notdue hsome hnle]
    exact hs

theorem PassTime_nonpos {s : DeterministicScheduler} {d st : Int}
    (h : d ≤ 0) : PassTime s d st = s := by
  rw [PassTime.eq_def]
  simp only [h, if_true]

theorem PassTime_nonpos_step {s : DeterministicScheduler} {d st : Int}
    (hd : ¬ d ≤ 0) (hst : st ≤ 0) : PassTime s d st = s := by
  rw [PassTime.eq_def]
  simp only [hd, hst, if_false, if_true]

theorem PassTime_step {s : DeterministicScheduler} {d st : Int}
    (hd : ¬ d ≤ 0) (hst : ¬ st ≤ 0) :
    PassTime s d st =
      PassTime (RunReadyTasks (ModifyTime s (min st d))) (d - min st d) st := by
  rw [PassTime.eq_def]
  simp only [hd, hst, if_false]

theorem Inv_ModifyTime {s : DeterministicScheduler} (hs : Inv s) {d : Int}
    (hd : 0 ≤ d) : Inv (ModifyTime s d) := by
  refine ⟨hs.logSorted, hs.logQueue, hs.queueIds, hs.logIds, ?_,
    hs.queueUnique, hs.queueWf⟩
  intro l hl
  have := hs.logTimes l hl
  simp only [ModifyTime]
  omega

theorem Inv_PassTime (s : DeterministicScheduler) (d st : Int) :
    Inv s → Inv (PassTime s d st) := by
  induction s, d, st using PassTime.induct with
  | case1 s d st hd =>
    intro hs
    rw [PassTime_nonpos hd]
    exact hs
  | case2 s d st hd hst =>
    intro hs
    rw [PassTime_nonpos_step hd hst]
    exact hs
  | case3 s d st hd hst ih =>
    intro hs
    rw [PassTime_step hd hst]
    exact ih (Inv_RunReadyTasks _ (Inv_ModifyTime hs (by omega)))

theorem Inv_StartScheduler {s : DeterministicScheduler} (hs : Inv s) :
    Inv (StartScheduler s) :=
  ⟨hs.logSorted, hs.logQueue, hs.queueIds, hs.logIds, hs.logTimes,
    hs.queueUnique, hs.queueWf⟩

theorem Inv_StopScheduler {s : DeterministicScheduler} (hs : Inv s) :
    Inv (StopScheduler s) := by
  refine ⟨hs.logSorted, ?_, ?_, hs.logIds, hs.logTimes, ?_, ?_⟩ <;>
    simp [StopScheduler]

theorem Schedule_clock (s : DeterministicScheduler) (d : Int) (t : Task) :
    (Schedule s d t).current_time_ = s.current_time_ := rfl

theorem scheduleSubs_clock (subs : List (Int × Task))
    (s : DeterministicScheduler) :
    (scheduleSubs s subs).current_time_ = s.current_time_ := by
  induction subs generalizing s with
  | nil => rfl
  | cons p rest ih =>
    cases p with
    | mk d t => simpa [scheduleSubs] using ih (Schedule s d t)

theorem invokeTask_clock (s : DeterministicScheduler) (t : Task) :
    (invokeTask s t).current_time_ = s.current_time_ := by
  cases t with
  | node l subs => exact scheduleSubs_clock subs _

theorem runOne_clock (s : DeterministicScheduler) (e : TaskEntry)
    (rest : List TaskEntry) :
    (runOne s e rest).current_time_ = s.current_time_ := by
  simp only [runOne]
  rw [invokeTask_clock]

theorem RunReadyTasks_clock (s : DeterministicScheduler) :
    (RunReadyTasks s).current_time_ = s.current_time_ := by
  induction s using RunReadyTasks.induct with
  | case1 s hnone => rw [RunReadyTasks_none hnone]
  | case2 s e rest hsome hle ih =>
    rw [RunReadyTasks_due hsome hle, ih, runOne_clock]
  | case3 s e rest hsome hnle => rw [RunReadyTasks_notdue hsome hnle]

theorem PassTime_clock (s : DeterministicScheduler) (d st : Int) :
    (PassTime s d st).current_time_ =
      s.current_time_ + (if 0 < st then max d 0 else 0) := by
  induction s, d, st using PassTime.induct with
  | case1 s d st hd =>
    rw [PassTime_nonpos hd]
    have : max d 0 = 0 := by omega
    rw [this]
    split <;> omega
  | case2 s d st hd hst =>
    rw [PassTime_nonpos_step hd hst]
    have : ¬ 0 < st := by omega
    simp only [this, if_false]
    omega
  | case3 s d st hd hst ih =>
    rw [PassTime_step hd hst, ih, RunReadyTasks_clock]
    simp only [ModifyTime]
    have h1 : 0 < st := by omega
    simp only [h1, if_true]
    omega

end DeterministicScheduler

/-- The operations appearing in the ordering claim: `Schedule` calls with a
non-negative delay and a well-formed task (all nested delays non-negative),
and the two `PassTime` forms. -/
def Op.okOrd : Op → Bool
  | .schedule d t => decide (0 ≤ d) && t.wfB
  | .passTime _ _ => true
  | .passTimeDefault _ => true
  | .start => false
  | .stop => false
  | .setInitialTime _ => false

theorem Inv_applyOp_ord {s : DeterministicScheduler}
    (hs : DeterministicScheduler.Inv s) {op : Op} (hop : op.okOrd = true) :
    DeterministicScheduler.Inv (applyOp s op) := by
  cases op with
  | schedule d t =>
    simp only [Op.okOrd, Bool.and_eq_true, decide_eq_true_eq] at hop
    exact DeterministicScheduler.Inv_Schedule hs hop.1 hop.2
  | passTime d st => exact DeterministicScheduler.Inv_PassTime s d st hs
  | passTimeDefault d =>
    exact DeterministicScheduler.Inv_PassTime s d _ hs
  | start => simp [Op.okOrd] at hop
  | stop => simp [Op.okOrd] at hop
  | setInitialTime t => simp [Op.okOrd] at hop

theorem Inv_applyOps_ord {ops : List Op} {s : DeterministicScheduler}
    (hs : DeterministicScheduler.Inv s)
    (hops : ∀ op ∈ ops, op.okOrd = true) :
    DeterministicScheduler.Inv (applyOps ops s) := by
  induction ops generalizing s with
  | nil => exact hs
  | cons op rest ih =>
    exact ih (Inv_applyOp_ord hs (hops op (List.mem_cons_self op rest)))
      (fun o ho => hops o (List.mem_cons.mpr (Or.inr ho)))

open DeterministicScheduler

theorem idsBelow_init : idsBelow init := by
  constructor <;> simp [init]

theorem idsBelow_Schedule {s : DeterministicScheduler} (h : idsBelow s)
    (d : Int) (t : Task) : idsBelow (Schedule s d t) := by
  constructor
  · intro e he
    simp only [Schedule, List.mem_append, List.mem_singleton] at he
    rcases he with he | he
    · exact Nat.lt_succ_of_lt (h.1 e he)
    · subst he
      exact Nat.lt_succ_self _
  · intro l hl
    exact Nat.lt_succ_of_lt (h.2 l hl)

theorem idsBelow_scheduleSubs {subs : List (Int × Task)}
    {s : DeterministicScheduler} (h : idsBelow s) :
    idsBelow (scheduleSubs s subs) := by
  induction subs generalizing s with
  | nil => exact h
  | cons p rest ih =>
    cases p with
    | mk d t => exact ih (idsBelow_Schedule h d t)

theorem idsBelow_invokeTask {s : DeterministicScheduler} (h : idsBelow s)
    (t : Task) : idsBelow (invokeTask s t) := by
  cases t with
  | node l subs => exact idsBelow_scheduleSubs h

theorem idsBelow_runOne {s : DeterministicScheduler} (h : idsBelow s)
    {e : TaskEntry} {rest : List TaskEntry}
    (hp : pqPop s.work_queue_ = some (e, rest)) :
    idsBelow (runOne s e rest) := by
  have he : e ∈ s.work_queue_ :=
    (pqPop_perm hp).mem_iff.mp (List.mem_cons_self e rest)
  have h1 : idsBelow { s with work_queue_ := rest, log := s.log ++ [e], running_internal_ := true } := by
    constructor
    · intro x hx
      exact h.1 x ((pqPop_perm hp).mem_iff.mp (List.mem_cons.mpr (Or.inr hx)))
    · intro l hl
      simp only [List.mem_append, List.mem_singleton] at hl
      rcases hl with hl | hl
      · exact h.2 l hl
      · subst hl
        exact h.1 l he
  have h2 := idsBelow_invokeTask h1 e.task
  exact ⟨h2.1, h2.2⟩

theorem idsBelow_RunReadyTasks (s : DeterministicScheduler) :
    idsBelow s → idsBelow (RunReadyTasks s) := by
  induction s using RunReadyTasks.induct with
  | case1 s hnone =>
    intro h
    rwa [RunReadyTasks_none hnone]
  | case2 s e rest hsome hle ih =>
    intro h
    rw [RunReadyTasks_due hsome hle]
    exact ih (idsBelow_runOne h hsome)
  | case3 s e rest hsome hnle =>
    intro h
    rwa [RunReadyTasks_notdue hsome hnle]

theorem idsBelow_PassTime (s : DeterministicScheduler) (d st : Int) :
    idsBelow s → idsBelow (PassTime s d st) := by
  induction s, d, st using PassTime.induct with
  | case1 s d st hd =>
    intro h
    rwa [PassTime_nonpos hd]
  | case2 s d st hd hst =>
    intro h
    rwa [PassTime_nonpos_step hd hst]
  | case3 s d st hd hst ih =>
    intro h
    rw [PassTime_step hd hst]
    exact ih (idsBelow_RunReadyTasks _ ⟨h.1, h.2⟩)

theorem idsBelow_applyOp {s : DeterministicScheduler} (h : idsBelow s)
    (op : Op) : idsBelow (applyOp s op) := by
  cases op with
  | schedule d t => exact idsBelow_Schedule h d t
  | passTime d st => exact idsBelow_PassTime s d st h
  | passTimeDefault d => exact idsBelow_PassTime s d DefaultTimeStep h
  | start => exact ⟨h.1, h.2⟩
  | stop => exact ⟨by simp [applyOp, StopScheduler], h.2⟩
  | setInitialTime t => exact ⟨h.1, h.2⟩

theorem idsBelow_applyOps (ops : List Op) {s : DeterministicScheduler}
    (h : idsBelow s) : idsBelow (applyOps ops s) := by
  induction ops generalizing s with
  | nil => exact h
  | cons op rest ih => exact ih (idsBelow_applyOp h op)

theorem freshFrom_Schedule {N : Nat} {L0 : List TaskEntry}
    {s : DeterministicScheduler} (h : freshFrom N L0 s) (d : Int) (t : Task) :
    freshFrom N L0 (Schedule s d t) := by
  refine ⟨Nat.le_succ_of_le h.1, ?_, h.2.2⟩
  intro e he
  simp only [Schedule, List.mem_append, List.mem_singleton] at he
  rcases he with he | he
  · exact h.2.1 e he
  · subst he
    exact h.1

theorem freshFrom_scheduleSubs {N : Nat} {L0 : List TaskEntry}
    {subs : List (Int × Task)} {s : DeterministicScheduler}
    (h : freshFrom N L0 s) : freshFrom N L0 (scheduleSubs s subs) := by
  induction subs generalizing s with
  | nil => exact h
  | cons p rest ih =>
    cases p with
    | mk d t => exact ih (freshFrom_Schedule h d t)

theorem freshFrom_invokeTask {N : Nat} {L0 : List TaskEntry}
    {s : DeterministicScheduler} (h : freshFrom N L0 s) (t : Task) :
    freshFrom N L0 (invokeTask s t) := by
  cases t with
  | node l subs => exact freshFrom_scheduleSubs h

theorem freshFrom_runOne {N : Nat} {L0 : List TaskEntry}
    {s : DeterministicScheduler} (h : freshFrom N L0 s) {e : TaskEntry}
    {rest : List TaskEntry} (hp : pqPop s.work_queue_ = some (e, rest)) :
    freshFrom N L0 (runOne s e rest) := by
  have he : e ∈ s.work_queue_ :=
    (pqPop_perm hp).mem_iff.mp (List.mem_cons_self e rest)
  have h1 : freshFrom N L0 { s with work_queue_ := rest, log := s.log ++ [e], running_internal_ := true } := by
    refine ⟨h.1, ?_, ?_⟩
    · intro x hx
      exact h.2.1 x
        ((pqPop_perm hp).mem_iff.mp (List.mem_cons.mpr (Or.inr hx)))
    · intro l hl
      simp only [List.mem_append, List.mem_singleton] at hl
      rcases hl with hl | hl
      · exact h.2.2 l hl
      · subst hl
        exact Or.inr (h.2.1 l he)
  have h2 := freshFrom_invokeTask h1 e.task
  exact ⟨h2.1, h2.2.1, h2.2.2⟩

theorem freshFrom_RunReadyTasks (s : DeterministicScheduler) {N : Nat}
    {L0 : List TaskEntry} :
    freshFrom N L0 s → freshFrom N L0 (RunReadyTasks s) := by
  induction s using RunReadyTasks.induct with
  | case1 s hnone =>
    intro h
    rwa [RunReadyTasks_none hnone]
  | case2 s e rest hsome hle ih =>
    intro h
    rw [RunReadyTasks_due hsome hle]
    exact ih (freshFrom_runOne h hsome)
  | case3 s e rest hsome hnle =>
    intro h
    rwa [RunReadyTasks_notdue hsome hnle]

theorem freshFrom_PassTime (s : DeterministicScheduler) (d st : Int)
    {N : Nat} {L0 : List TaskEntry} :
    freshFrom N L0 s → freshFrom N L0 (PassTime s d st) := by
  induction s, d, st using PassTime.induct with
  | case1 s d st hd =>
    intro h
    rwa [PassTime_nonpos hd]
  | case2 s d st hd hst =>
    intro h
    rwa [PassTime_nonpos_step hd hst]
  | case3 s d st hd hst ih =>
    intro h
    rw [PassTime_step hd hst]
    exact ih (freshFrom_RunReadyTasks _ ⟨h.1, h.2.1, h.2.2⟩)

theorem freshFrom_applyOp {N : Nat} {L0 : List TaskEntry}
    {s : DeterministicScheduler} (h : freshFrom N L0 s) (op : Op) :
    freshFrom N L0 (applyOp s op) := by
  cases op with
  | schedule d t => exact freshFrom_Schedule h d t
  | passTime d st => exact freshFrom_PassTime s d st h
  | passTimeDefault d => exact freshFrom_PassTime s d DefaultTimeStep h
  | start => exact ⟨h.1, h.2.1, h.2.2⟩
  | stop => exact ⟨h.1, by simp [applyOp, StopScheduler], h.2.2⟩
  | setInitialTime t => exact ⟨h.1, h.2.1, h.2.2⟩

theorem freshFrom_applyOps (ops : List Op) {N : Nat} {L0 : List TaskEntry}
    {s : DeterministicScheduler} (h : freshFrom N L0 s) :
    freshFrom N L0 (applyOps ops s) := by
  induction ops generalizing s with
  | nil => exact h
  | cons op rest ih => exact ih (freshFrom_applyOp h op)

/-- C1: for every sequence of `Schedule` calls with non-negative delays
(also inside tasks enqueued during a drain) interleaved with `PassTime`
calls on a started scheduler, the executed tasks, in execution order, are
strictly increasing in the (due time, sequence id) order: due times are
non-decreasing, and tasks with equal due times run in enqueue order (lower
sequence id first), however deeply nested the enqueueing calls were. -/
theorem C1_execution_order (ops : List Op)
    (hops : ∀ op ∈ ops, op.okOrd = true) :
    ((applyOps ops (StartScheduler init)).log).Pairwise
      (fun a b => a.time < b.time ∨ (a.time = b.time ∧ a.id < b.id)) :=
  (Inv_applyOps_ord (Inv_StartScheduler Inv_init) hops).logSorted

/-- Witness for C1 at a concrete operation sequence: two tasks scheduled
out of due-time order, a drain, then a task that schedules a nested task
while running. -/
theorem C1_execution_order_witness :
    ((applyOps
        [Op.schedule 100 (Task.node 0 []), Op.schedule 50 (Task.node 1 []),
         Op.passTimeDefault 200,
         Op.schedule 0 (Task.node 2 [(0, Task.node 3 [])]),
         Op.passTime 10 3]
        (StartScheduler init)).log).Pairwise
      (fun a b => a.time < b.time ∨ (a.time = b.time ∧ a.id < b.id)) :=
  C1_execution_order _ (by decide)

/-- C3: the source comparator `TaskEntry::operator<` holds of `(a, b)`
exactly when `b` orders before `a` in the relation of the spec (`b` due earlier,
or due at the same time with a lower sequence id), and consequently a pop
of the largest-first priority queue returns an entry that no stored entry
precedes in that relation. -/
theorem C3_comparator :
    (∀ a b : TaskEntry, TaskEntry.lt a b = true ↔
      (b.time < a.time ∨ (b.time = a.time ∧ b.id < a.id))) ∧
    (∀ (q : List TaskEntry) (e : TaskEntry) (rest : List TaskEntry),
      pqPop q = some (e, rest) → ∀ x ∈ q,
        ¬ (x.time < e.time ∨ (x.time = e.time ∧ x.id < e.id))) := by
  constructor
  · intro a b
    exact TaskEntry.lt_iff_klex a b
  · intro q e rest h x hx
    exact pqPop_min h x hx

/-- Witness for C3: a two-entry queue pops the earlier-due entry, and the
comparator instance evaluates as stated. -/
theorem C3_comparator_witness :
    (TaskEntry.lt ⟨5, 1, Task.node 0 []⟩ ⟨3, 0, Task.node 1 []⟩ = true ↔
      ((3 : Int) < 5 ∨ ((3 : Int) = 5 ∧ (0 : Nat) < 1))) ∧
    ¬ ((5 : Int) < 3 ∨ ((5 : Int) = 3 ∧ (1 : Nat) < 0)) :=
  ⟨C3_comparator.1 ⟨5, 1, Task.node 0 []⟩ ⟨3, 0, Task.node 1 []⟩,
   C3_comparator.2 [⟨5, 1, Task.node 0 []⟩, ⟨3, 0, Task.node 1 []⟩]
     ⟨3, 0, Task.node 1 []⟩ [⟨5, 1, Task.node 0 []⟩] rfl
     ⟨5, 1, Task.node 0 []⟩ (by simp)⟩

/-- C4: `Schedule` never invokes the task synchronously: in every scheduler
state it leaves the executed-task history unchanged, inserts exactly one
new entry with due time `current_time_ + delay` and the next sequence id,
bumps the sequence counter, and changes nothing else. -/
theorem C4_schedule_never_synchronous (s : DeterministicScheduler) (d : Int)
    (t : Task) :
    (Schedule s d t).log = s.log ∧
    (Schedule s d t).work_queue_ =
      s.work_queue_ ++ [⟨s.current_time_ + d, s.current_id_, t⟩] ∧
    (Schedule s d t).current_id_ = s.current_id_ + 1 ∧
    (Schedule s d t).current_time_ = s.current_time_ ∧
    (Schedule s d t).running_internal_ = s.running_internal_ ∧
    (Schedule s d t).run_state_ = s.run_state_ :=
  ⟨rfl, rfl, rfl, rfl, rfl, rfl⟩

/-- C6 counterexample: `SetInitialTime` called on a started scheduler is
accepted silently — the call takes effect (the clock becomes the given
instant) and the scheduler stays running; the source body is a single
unconditional assignment with no check and no error path. -/
theorem C6_counterexample :
    (SetInitialTime (StartScheduler init) 42).current_time_ = 42 ∧
    (SetInitialTime (StartScheduler init) 42).run_state_ =
      RunState.running := by
  constructor <;> rfl

/-- C6 (amended): `SetInitialTime` is unchecked: in every scheduler state
(before or after `Start`) it sets the virtual clock to the given instant
and changes nothing else; misuse after `Start` is silently accepted, not
reported. -/
theorem C6_set_initial_time_unchecked (s : DeterministicScheduler)
    (new_time : Int) :
    (SetInitialTime s new_time).current_time_ = new_time ∧
    (SetInitialTime s new_time).current_id_ = s.current_id_ ∧
    (SetInitialTime s new_time).run_state_ = s.run_state_ ∧
    (SetInitialTime s new_time).running_internal_ = s.running_internal_ ∧
    (SetInitialTime s new_time).work_queue_ = s.work_queue_ ∧
    (SetInitialTime s new_time).log = s.log :=
  ⟨rfl, rfl, rfl, rfl, rfl, rfl⟩

/-- C7 counterexample: the clock can decrease through an operation other
than a pre-`Start` reinitialization: `SetInitialTime` called after `Start`
(which the code accepts) moves the clock backwards. -/
theorem C7_counterexample :
    (StartScheduler init).run_state_ = RunState.running ∧
    (SetInitialTime (StartScheduler init) (-5)).current_time_ <
      (StartScheduler init).current_time_ := by
  constructor
  · rfl
  · decide

/-- C7 (amended): the virtual clock never decreases across any operation
other than `SetInitialTime` (which the code permits at any time, not only
before `Start`); in particular every `PassTime` call and every drain leaves
the clock greater than or equal to its previous value. -/
theorem C7_clock_monotone :
    (∀ (s : DeterministicScheduler) (op : Op),
      (∀ t, op ≠ Op.setInitialTime t) →
        s.current_time_ ≤ (applyOp s op).current_time_) ∧
    (∀ s : DeterministicScheduler,
      s.current_time_ ≤ (RunReadyTasks s).current_time_) := by
  constructor
  · intro s op h
    cases op with
    | schedule d t => exact le_of_eq rfl
    | passTime d st =>
      show s.current_time_ ≤ (PassTime s d st).current_time_
      rw [PassTime_clock]
      split <;> omega
    | passTimeDefault d =>
      show s.current_time_ ≤ (PassTime s d DefaultTimeStep).current_time_
      rw [PassTime_clock]
      split <;> omega
    | start => exact le_of_eq rfl
    | stop => exact le_of_eq rfl
    | setInitialTime t => exact absurd rfl (h t)
  · intro s
    rw [RunReadyTasks_clock]

/-- Witness for C7 at a concrete state and operation. -/
theorem C7_clock_monotone_witness :
    (StartScheduler init).current_time_ ≤
      (applyOp (StartScheduler init) (Op.passTimeDefault 20)).current_time_ :=
  C7_clock_monotone.1 (StartScheduler init) (Op.passTimeDefault 20)
    (fun t h => Op.noConfusion h)

/-- C8: a non-positive delta makes `PassTime` perform zero iterations, with
or without an explicit step: the whole scheduler state — clock, queue,
sequence counter, flags, history — is returned unchanged and no task is
invoked. -/
theorem C8_nonpositive_delta_noop (s : DeterministicScheduler) (d st : Int)
    (h : d ≤ 0) :
    PassTime s d st = s ∧ PassTimeDefault s d = s :=
  ⟨PassTime_nonpos h, PassTime_nonpos h⟩

/-- Witness for C8 at a concrete state and deltas. -/
theorem C8_nonpositive_delta_noop_witness :
    (-3 : Int) ≤ 0 ∧
    PassTime (StartScheduler init) (-3) 7 = StartScheduler init ∧
    PassTimeDefault (StartScheduler init) (-3) = StartScheduler init :=
  ⟨by decide,
   (C8_nonpositive_delta_noop (StartScheduler init) (-3) 7 (by decide)).1,
   (C8_nonpositive_delta_noop (StartScheduler init) (-3) 7 (by decide)).2⟩

/-- C10: a freshly constructed scheduler is not running on the internal
thread and its sequence counter starts at zero, so the first task ever
scheduled receives sequence id 0. -/
theorem C10_fresh_scheduler :
    IsRunningOnThread init = false ∧ init.current_id_ = 0 ∧
    ∀ (d : Int) (t : Task),
      ((Schedule init d t).work_queue_).map TaskEntry.id = [0] :=
  ⟨rfl, rfl, fun d t => rfl⟩

/-- C5: after `StopScheduler` the pending queue is discarded without
invocation, and no entry that was in the queue at stop time is ever
executed by any later operations (even erroneous `PassTime` or `Schedule`
calls): every executed entry carrying that sequence id was already in
the pre-stop execution history. -/
theorem C5_stop_never_executes (ops0 ops : List Op) (e : TaskEntry)
    (he : e ∈ (applyOps ops0 init).work_queue_) :
    (StopScheduler (applyOps ops0 init)).work_queue_ = [] ∧
    ∀ l ∈ (applyOps ops (StopScheduler (applyOps ops0 init))).log,
      l.id = e.id → l ∈ (applyOps ops0 init).log := by
  have hids : idsBelow (applyOps ops0 init) :=
    idsBelow_applyOps ops0 idsBelow_init
  have hfresh : freshFrom (applyOps ops0 init).current_id_
      (applyOps ops0 init).log (StopScheduler (applyOps ops0 init)) :=
    ⟨le_refl _, by simp [StopScheduler], fun l hl => Or.inl hl⟩
  have hafter := freshFrom_applyOps ops hfresh
  refine ⟨rfl, ?_⟩
  intro l hl heq
  rcases hafter.2.2 l hl with h | h
  · exact h
  · exfalso
    have := hids.1 e he
    omega

/-- Witness for C5: a task due at 5 is pending when the scheduler stops;
afterwards a new task is scheduled and time is passed, and the conclusion
is obtained for the stranded entry. -/
theorem C5_stop_never_executes_witness :
    (StopScheduler (applyOps [Op.start, Op.schedule 5 (Task.node 0 [])]
        init)).work_queue_ = [] ∧
    ∀ l ∈ (applyOps [Op.schedule 0 (Task.node 7 []), Op.passTimeDefault 10]
        (StopScheduler (applyOps [Op.start, Op.schedule 5 (Task.node 0 [])]
          init))).log,
      l.id = (⟨5, 0, Task.node 0 []⟩ : TaskEntry).id →
        l ∈ (applyOps [Op.start, Op.schedule 5 (Task.node 0 [])] init).log :=
  C5_stop_never_executes [Op.start, Op.schedule 5 (Task.node 0 [])]
    [Op.schedule 0 (Task.node 7 []), Op.passTimeDefault 10]
    ⟨5, 0, Task.node 0 []⟩ (List.mem_singleton.mpr rfl)

theorem applyOps_cons (op : Op) (rest : List Op)
    (s : DeterministicScheduler) :
    applyOps (op :: rest) s = applyOps rest (applyOp s op) := rfl

theorem applyOps_clock (ops : List Op) (s : DeterministicScheduler)
    (hops : ∀ op ∈ ops, op.okClock = true) :
    (applyOps ops s).current_time_ = s.current_time_ + deltaSum ops := by
  induction ops generalizing s with
  | nil => simp [applyOps, deltaSum]
  | cons op rest ih =>
    have hop := hops op (List.mem_cons_self op rest)
    have hrest : ∀ o ∈ rest, o.okClock = true := fun o ho =>
      hops o (List.mem_cons.mpr (Or.inr ho))
    rw [applyOps_cons, ih (applyOp s op) hrest]
    cases op with
    | schedule d t =>
      simp only [deltaSum]
      rw [show (applyOp s (Op.schedule d t)).current_time_ = s.current_time_
        from rfl]
    | passTime d st =>
      simp only [Op.okClock, decide_eq_true_eq] at hop
      simp only [deltaSum]
      rw [show applyOp s (Op.passTime d st) = PassTime s d st from rfl,
        PassTime_clock]
      simp only [hop, if_true]
      omega
    | passTimeDefault d =>
      simp only [deltaSum]
      rw [show applyOp s (Op.passTimeDefault d) =
          PassTime s d DefaultTimeStep from rfl, PassTime_clock]
      rw [show DefaultTimeStep = (10 : Int) from rfl]
      norm_num
      omega
    | start =>
      simp only [deltaSum]
      rw [show (applyOp s Op.start).current_time_ = s.current_time_ from rfl]
    | stop =>
      simp only [deltaSum]
      rw [show (applyOp s Op.stop).current_time_ = s.current_time_ from rfl]
    | setInitialTime t => simp [Op.okClock] at hop

/-- C9 counterexample: with the default initial time 0, one completed
`PassTime(-5)` call leaves the clock at 0, not at the claimed
`initial + sum of deltas = -5`. -/
theorem C9_counterexample :
    ¬ (GetCurrentTime (PassTimeDefault (StartScheduler init) (-5)) =
        0 + (-5)) := by
  intro h
  rw [show PassTimeDefault (StartScheduler init) (-5) = StartScheduler init
    from PassTime_nonpos (by decide)] at h
  exact absurd h (by decide)

/-- C9 (amended): outside of a drain, `GetCurrentTime` equals the initial
time (set by `SetInitialTime` before start) plus the sum of the positive
parts `max(delta, 0)` of the deltas of the completed `PassTime` calls —
equivalently, plus the sum of the deltas themselves whenever all deltas are
non-negative — for operation sequences without further `SetInitialTime`
calls and with positive explicit steps; and `GetCurrentTime` is a pure
read of the virtual clock. -/
theorem C9_clock_is_initial_plus_deltas (t0 : Int) (ops : List Op)
    (hops : ∀ op ∈ ops, op.okClock = true) :
    GetCurrentTime (applyOps ops (StartScheduler (SetInitialTime init t0))) =
      t0 + deltaSum ops ∧
    (∀ s : DeterministicScheduler, GetCurrentTime s = s.current_time_) := by
  refine ⟨?_, fun s => rfl⟩
  have h := applyOps_clock ops (StartScheduler (SetInitialTime init t0)) hops
  rw [show (StartScheduler (SetInitialTime init t0)).current_time_ = t0
    from rfl] at h
  exact h

theorem pqPop_none {q : List TaskEntry} (h : pqPop q = none) : q = [] := by
  cases q with
  | nil => rfl
  | cons b l => simp [pqPop] at h

theorem invokeTask_leaf {t : Task} (h : t.leaf = true)
    (s : DeterministicScheduler) : invokeTask s t = s := by
  cases t with
  | node l subs =>
    cases subs with
    | nil => rfl
    | cons p rest => simp [Task.leaf] at h

theorem runOne_leaf {e : TaskEntry} (h : e.task.leaf = true)
    (s : DeterministicScheduler) (rest : List TaskEntry) :
    runOne s e rest = { s with work_queue_ := rest, log := s.log ++ [e] } := by
  rw [runOne, invokeTask_leaf h]

theorem pqPop_min_time {q : List TaskEntry} {e : TaskEntry}
    {rest : List TaskEntry} (h : pqPop q = some (e, rest)) :
    ∀ x ∈ q, e.time ≤ x.time := by
  intro x hx
  have := pqPop_min h x hx
  simp only [klex, TaskEntry.key] at this
  omega

theorem RunReadyTasks_leaf (s : DeterministicScheduler) :
    (∀ e ∈ s.work_queue_, e.task.leaf = true) →
    ∃ ran, (RunReadyTasks s).log = s.log ++ ran ∧
      List.Perm (ran ++ (RunReadyTasks s).work_queue_) s.work_queue_ ∧
      (∀ x ∈ ran, x.time ≤ s.current_time_) ∧
      (∀ x ∈ (RunReadyTasks s).work_queue_, ¬ x.time ≤ s.current_time_) := by
  induction s using RunReadyTasks.induct with
  | case1 s hnone =>
    intro _
    rw [RunReadyTasks_none hnone]
    refine ⟨[], by simp, by simp, by simp, ?_⟩
    rw [pqPop_none hnone]
    simp
  | case2 s e rest hsome hle ih =>
    intro hleaf
    have he : e ∈ s.work_queue_ :=
      (pqPop_perm hsome).mem_iff.mp (List.mem_cons_self e rest)
    have hleafe : e.task.leaf = true := hleaf e he
    rw [RunReadyTasks_due hsome hle]
    rw [runOne_leaf hleafe] at ih ⊢
    obtain ⟨ran', h1, h2, h3, h4⟩ := ih (fun x hx => hleaf x
      ((pqPop_perm hsome).mem_iff.mp (List.mem_cons.mpr (Or.inr hx))))
    refine ⟨e :: ran', ?_, ?_, ?_, ?_⟩
    · rw [h1]
      simp
    · exact (List.Perm.cons e h2).trans (pqPop_perm hsome)
    · intro x hx
      rcases List.mem_cons.mp hx with hx | hx
      · subst hx
        exact hle
      · exact h3 x hx
    · exact h4
  | case3 s e rest hsome hnle =>
    intro _
    rw [RunReadyTasks_notdue hsome hnle]
    refine ⟨[], by simp, by simp, by simp, ?_⟩
    intro x hx hxle
    exact hnle (le_trans (pqPop_min_time hsome x hx) hxle)

theorem PassTime_leaf (s : DeterministicScheduler) (d st : Int) :
    0 < st → 0 < d → (∀ e ∈ s.work_queue_, e.task.leaf = true) →
    ∃ ran, (PassTime s d st).log = s.log ++ ran ∧
      List.Perm (ran ++ (PassTime s d st).work_queue_) s.work_queue_ ∧
      (∀ x ∈ ran, x.time ≤ s.current_time_ + d) ∧
      (∀ x ∈ (PassTime s d st).work_queue_,
        ¬ x.time ≤ s.current_time_ + d) := by
  induction s, d, st using PassTime.induct with
  | case1 s d st hd =>
    intro _ hd' _
    exfalso
    omega
  | case2 s d st hd hst =>
    intro hst' _ _
    exfalso
    omega
  | case3 s d st hd hst ih =>
    intro hst' hd' hleaf
    rw [PassTime_step hd hst]
    obtain ⟨ran1, d1, d2, d3, d4⟩ := RunReadyTasks_leaf
      (ModifyTime s (min st d)) hleaf
    have hclock : (RunReadyTasks (ModifyTime s (min st d))).current_time_ =
        s.current_time_ + min st d := by
      rw [RunReadyTasks_clock]
      rfl
    by_cases hdm : d - min st d ≤ 0
    · rw [PassTime_nonpos hdm]
      refine ⟨ran1, d1, d2, ?_, ?_⟩
      · intro x hx
        have := d3 x hx
        simp only [ModifyTime] at this
        omega
      · intro x hx
        have := d4 x hx
        simp only [ModifyTime] at this
        omega
    · have hq1leaf : ∀ x ∈ (RunReadyTasks (ModifyTime s (min st d))).work_queue_,
          x.task.leaf = true := by
        intro x hx
        exact hleaf x (d2.mem_iff.mp (List.mem_append.mpr (Or.inr hx)))
      obtain ⟨ran2, e1, e2, e3, e4⟩ := ih hst' (by omega) hq1leaf
      refine ⟨ran1 ++ ran2, ?_, ?_, ?_, ?_⟩
      · rw [e1, d1, List.append_assoc]
        rfl
      · rw [List.append_assoc]
        exact ((List.Perm.append_left ran1 e2).trans d2)
      · intro x hx
        rcases List.mem_append.mp hx with hx | hx
        · have := d3 x hx
          simp only [ModifyTime] at this
          omega
        · have := e3 x hx
          rw [hclock] at this
          omega
      · intro x hx
        have := e4 x hx
        rw [hclock] at this
        omega

theorem perm_eq_filter {a b l : List TaskEntry} {p : TaskEntry → Bool}
    (h : List.Perm (a ++ b) l) (ha : ∀ x ∈ a, p x = true)
    (hb : ∀ x ∈ b, p x = false) : List.Perm a (l.filter p) := by
  have h1 : (a ++ b).filter p = a := by
    rw [List.filter_append, List.filter_eq_self.mpr ha, List.append_right_eq_self]
    exact List.filter_eq_nil_iff.mpr (fun x hx => by simp [hb x hx])
  have h2 := h.filter p
  rwa [h1] at h2

/-- C2 counterexample: with one pending task, due immediately, that
schedules a child with delay 5 ms when it runs, `PassTime(20)` (default
10 ms steps) and `PassTime(20, 20)` reach the same final clock, but they
execute different task sets: under stepping the child becomes due at 15
(id 1) and runs within the call; under the single full jump the child is
created due at 25 and is still pending when the call returns. -/
theorem C2_counterexample :
    (PassTimeDefault (Schedule (StartScheduler init) 0
        (Task.node 0 [(5, Task.node 1 [])])) 20).current_time_ =
      (PassTime (Schedule (StartScheduler init) 0
        (Task.node 0 [(5, Task.node 1 [])])) 20 20).current_time_ ∧
    ((15 : Int), (1 : Nat)) ∈
      ((PassTimeDefault (Schedule (StartScheduler init) 0
        (Task.node 0 [(5, Task.node 1 [])])) 20).log.map TaskEntry.key) ∧
    ((15 : Int), (1 : Nat)) ∉
      ((PassTime (Schedule (StartScheduler init) 0
        (Task.node 0 [(5, Task.node 1 [])])) 20 20).log.map TaskEntry.key) := by
  refine ⟨?_, ?_, ?_⟩ <;>
    simp [PassTimeDefault, PassTime, RunReadyTasks, runOne, invokeTask,
      scheduleSubs, Schedule, StartScheduler, init, ModifyTime, pqPop,
      pqSelect, TaskEntry.lt, TaskEntry.key, DefaultTimeStep]

/-- C2 (amended): for every delta `D`, `PassTime(D)` with no step argument
and `PassTime(D, D)` (a single full-interval jump) always produce the same
final clock value; and when no pending task schedules further work when it
runs (all queued tasks are leaves), they also execute the same multiset of
tasks.  (In general the executed sets can differ: a task that schedules a
child mid-interval gives the child a due time computed from the coarser
clock, as the counterexample shows.) -/
theorem C2_passtime_equivalence (s : DeterministicScheduler) (D : Int) :
    (PassTimeDefault s D).current_time_ = (PassTime s D D).current_time_ ∧
    ((∀ e ∈ s.work_queue_, e.task.leaf = true) →
      List.Perm (PassTimeDefault s D).log (PassTime s D D).log) := by
  constructor
  · by_cases hD : D ≤ 0
    · rw [show PassTimeDefault s D = PassTime s D DefaultTimeStep from rfl,
        PassTime_nonpos hD, PassTime_nonpos hD]
    · rw [show PassTimeDefault s D = PassTime s D DefaultTimeStep from rfl,
        PassTime_clock, PassTime_clock]
      have h10 : (0 : Int) < DefaultTimeStep := by decide
      have hD' : (0 : Int) < D := by omega
      simp only [h10, hD', if_true]
  · intro hleaf
    by_cases hD : D ≤ 0
    · rw [show PassTimeDefault s D = PassTime s D DefaultTimeStep from rfl,
        PassTime_nonpos hD, PassTime_nonpos hD]
    · obtain ⟨ran1, a1, a2, a3, a4⟩ :=
        PassTime_leaf s D DefaultTimeStep (by decide) (by omega) hleaf
      obtain ⟨ran2, b1, b2, b3, b4⟩ :=
        PassTime_leaf s D D (by omega) (by omega) hleaf
      have hp1 : List.Perm ran1
          (s.work_queue_.filter (fun x => decide (x.time ≤ s.current_time_ + D))) :=
        perm_eq_filter a2 (fun x hx => decide_eq_true (a3 x hx))
          (fun x hx => decide_eq_false (a4 x hx))
      have hp2 : List.Perm ran2
          (s.work_queue_.filter (fun x => decide (x.time ≤ s.current_time_ + D))) :=
        perm_eq_filter b2 (fun x hx => decide_eq_true (b3 x hx))
          (fun x hx => decide_eq_false (b4 x hx))
      rw [show PassTimeDefault s D = PassTime s D DefaultTimeStep from rfl,
        a1, b1]
      exact List.Perm.append_left s.log (hp1.trans hp2.symm)

/-- Witness for C2 at a concrete state (two pending leaf tasks due at 100
and 50) and delta 200. -/
theorem C2_passtime_equivalence_witness :
    (PassTimeDefault (Schedule (Schedule (StartScheduler init) 100
        (Task.node 0 [])) 50 (Task.node 1 [])) 200).current_time_ =
      (PassTime (Schedule (Schedule (StartScheduler init) 100
        (Task.node 0 [])) 50 (Task.node 1 [])) 200 200).current_time_ ∧
    List.Perm
      (PassTimeDefault (Schedule (Schedule (StartScheduler init) 100
        (Task.node 0 [])) 50 (Task.node 1 [])) 200).log
      (PassTime (Schedule (Schedule (StartScheduler init) 100
        (Task.node 0 [])) 50 (Task.node 1 [])) 200 200).log :=
  ⟨(C2_passtime_equivalence (Schedule (Schedule (StartScheduler init) 100
      (Task.node 0 [])) 50 (Task.node 1 [])) 200).1,
   (C2_passtime_equivalence (Schedule (Schedule (StartScheduler init) 100
      (Task.node 0 [])) 50 (Task.node 1 [])) 200).2 (by decide)⟩

/-- Witness for C9 at a concrete initial time and operation sequence. -/
theorem C9_clock_is_initial_plus_deltas_witness :
    GetCurrentTime (applyOps
        [Op.schedule 3 (Task.node 0 []), Op.passTimeDefault 20,
         Op.passTime 5 2]
        (StartScheduler (SetInitialTime init 7))) =
      7 + deltaSum
        [Op.schedule 3 (Task.node 0 []), Op.passTimeDefault 20,
         Op.passTime 5 2] ∧
    (∀ s : DeterministicScheduler, GetCurrentTime s = s.current_time_) :=
  C9_clock_is_initial_plus_deltas 7 _ (by decide)

end DetSched
